import Mathlib

/-!
Verification of the CryptoFlow repository against its specification.

Each section embeds one part of the source code as Lean definitions
(translated from the TypeScript / SQL / Python sources) and proves, or
refutes, the corresponding specification claims.
-/

set_option maxRecDepth 4000

namespace Cryptoflow

/-! ## Warehouse rows and the latest-price materialized view

Embedding of the SQL in `scripts/setup.sh`:

  CREATE MATERIALIZED VIEW IF NOT EXISTS mv_latest_market_data AS
  SELECT DISTINCT ON (coin_id)
      coin_id, timestamp, price_usd, market_cap,
      total_volume, price_change_24h_pct, circulating_supply
  FROM fact_market_data
  ORDER BY coin_id, timestamp DESC;

The view reads only `fact_market_data`; `DISTINCT ON (coin_id)` with the
`ORDER BY coin_id, timestamp DESC` keeps, for each coin id (in ascending
id order), the row with the greatest timestamp.
-/

structure FactRow where
  coin_id : Nat
  timestamp : Nat
  price_usd : ℚ
  market_cap : ℚ
  total_volume : ℚ
  price_change_24h_pct : ℚ
  circulating_supply : ℚ
deriving DecidableEq, Repr

structure DimCoinRow where
  id : Nat
  coingecko_id : String
  symbol : String
  name : String
  image_url : String
  market_cap_rank : Nat
deriving DecidableEq, Repr

structure WarehouseState where
  dim_coin : List DimCoinRow
  fact_market_data : List FactRow
deriving DecidableEq, Repr

/-- One step of scanning for the snapshot of coin `c` with the greatest
timestamp (the row `DISTINCT ON (coin_id) ... ORDER BY timestamp DESC` keeps). -/
def latestStep (c : Nat) (acc : Option FactRow) (r : FactRow) : Option FactRow :=
  if r.coin_id = c then
    match acc with
    | none => some r
    | some b => if b.timestamp < r.timestamp then some r else some b
  else acc

/-- The snapshot of coin `c` with the greatest timestamp, if any. -/
def latestSnapshotFor (facts : List FactRow) (c : Nat) : Option FactRow :=
  facts.foldl (latestStep c) none

/-- Coin ids appearing in the fact table, deduplicated and in ascending order
(the `DISTINCT ON (coin_id) ... ORDER BY coin_id` grouping). -/
def snapshotCoinIds (facts : List FactRow) : List Nat :=
  ((facts.map FactRow.coin_id).dedup).mergeSort (· ≤ ·)

/-- The materialized view: one row per coin id, the snapshot with the greatest
timestamp.  Note that it selects from `fact_market_data` only. -/
def mv_latest_market_data (facts : List FactRow) : List FactRow :=
  (snapshotCoinIds facts).filterMap (latestSnapshotFor facts)

/-- Rebuilding the view from the warehouse state: the view's defining query
reads `fact_market_data` alone and performs no join with `dim_coin`. -/
def refreshLatestView (db : WarehouseState) : List FactRow :=
  mv_latest_market_data db.fact_market_data

theorem latestStep_cases (c : Nat) (acc : Option FactRow) (r : FactRow) :
    latestStep c acc r = acc ∨ (latestStep c acc r = some r ∧ r.coin_id = c) := by
  unfold latestStep
  split
  · next h =>
    cases acc with
    | none => right; exact ⟨rfl, h⟩
    | some a =>
      simp only
      split
      · right; exact ⟨rfl, h⟩
      · left; rfl
  · left; rfl

theorem latestStep_coin (c : Nat) (acc : Option FactRow) (r : FactRow)
    (hacc : ∀ b, acc = some b → b.coin_id = c) :
    ∀ b, latestStep c acc r = some b → b.coin_id = c := by
  intro b hb
  rcases latestStep_cases c acc r with h | ⟨h, hc⟩
  · exact hacc b (h ▸ hb)
  · rw [h] at hb
    cases hb
    exact hc

theorem latestFor_go_coin (c : Nat) :
    ∀ (l : List FactRow) (acc : Option FactRow),
      (∀ b, acc = some b → b.coin_id = c) →
      ∀ r, l.foldl (latestStep c) acc = some r → r.coin_id = c := by
  intro l
  induction l with
  | nil => intro acc hacc r hr; exact hacc r hr
  | cons x xs ih =>
    intro acc hacc r hr
    exact ih (latestStep c acc x) (latestStep_coin c acc x hacc) r hr

theorem latestFor_coin (facts : List FactRow) (c : Nat) :
    ∀ r, latestSnapshotFor facts c = some r → r.coin_id = c :=
  latestFor_go_coin c facts none (by simp)

theorem latestStep_mem (c : Nat) (acc : Option FactRow) (r : FactRow) :
    ∀ b, latestStep c acc r = some b → b = r ∨ acc = some b := by
  intro b hb
  rcases latestStep_cases c acc r with h | ⟨h, _⟩
  · right; exact h ▸ hb
  · rw [h] at hb
    cases hb
    left; rfl

theorem latestFor_go_mem (c : Nat) :
    ∀ (l : List FactRow) (acc : Option FactRow) (r : FactRow),
      l.foldl (latestStep c) acc = some r → r ∈ l ∨ acc = some r := by
  intro l
  induction l with
  | nil => intro acc r hr; right; exact hr
  | cons x xs ih =>
    intro acc r hr
    rcases ih (latestStep c acc x) r hr with h | h
    · left; exact List.mem_cons_of_mem x h
    · rcases latestStep_mem c acc x r h with h' | h'
      · left; rw [h']; exact List.mem_cons_self x xs
      · right; exact h'

theorem latestFor_mem (facts : List FactRow) (c : Nat) :
    ∀ r, latestSnapshotFor facts c = some r → r ∈ facts := by
  intro r hr
  rcases latestFor_go_mem c facts none r hr with h | h
  · exact h
  · simp at h

theorem latestStep_some_acc (c : Nat) (acc : Option FactRow) (x : FactRow)
    (a : FactRow) (ha : acc = some a) :
    ∃ b, latestStep c acc x = some b ∧ a.timestamp ≤ b.timestamp := by
  subst ha
  unfold latestStep
  split
  · simp only
    split
    · next h => exact ⟨x, rfl, le_of_lt h⟩
    · exact ⟨a, rfl, le_refl _⟩
  · exact ⟨a, rfl, le_refl _⟩

theorem latestStep_some_hit (c : Nat) (acc : Option FactRow) (x : FactRow)
    (hx : x.coin_id = c) :
    ∃ b, latestStep c acc x = some b ∧ x.timestamp ≤ b.timestamp := by
  unfold latestStep
  rw [if_pos hx]
  match acc with
  | none => exact ⟨x, rfl, le_refl _⟩
  | some a =>
    simp only
    split
    · exact ⟨x, rfl, le_refl _⟩
    · next h => exact ⟨a, rfl, le_of_not_lt h⟩

theorem latestFor_go_acc_le (c : Nat) :
    ∀ (l : List FactRow) (acc : Option FactRow) (a r : FactRow),
      acc = some a → l.foldl (latestStep c) acc = some r →
      a.timestamp ≤ r.timestamp := by
  intro l
  induction l with
  | nil =>
    intro acc a r ha hr
    rw [List.foldl_nil, ha] at hr
    cases hr
    exact le_refl _
  | cons x xs ih =>
    intro acc a r ha hr
    obtain ⟨b, hb, hab⟩ := latestStep_some_acc c acc x a ha
    rw [List.foldl_cons] at hr
    exact le_trans hab (ih (latestStep c acc x) b r hb hr)

theorem latestFor_go_max (c : Nat) :
    ∀ (l : List FactRow) (acc : Option FactRow) (r : FactRow),
      l.foldl (latestStep c) acc = some r →
      ∀ x ∈ l, x.coin_id = c → x.timestamp ≤ r.timestamp := by
  intro l
  induction l with
  | nil => intro acc r _ x hx; simp at hx
  | cons y ys ih =>
    intro acc r hr x hx hxc
    rw [List.foldl_cons] at hr
    rcases List.mem_cons.mp hx with h | h
    · subst h
      obtain ⟨b, hb, hxb⟩ := latestStep_some_hit c acc x hxc
      exact le_trans hxb (latestFor_go_acc_le c ys (latestStep c acc x) b r hb hr)
    · exact ih (latestStep c acc y) r hr x h hxc

theorem latestFor_max (facts : List FactRow) (c : Nat) (r : FactRow)
    (hr : latestSnapshotFor facts c = some r) :
    ∀ x ∈ facts, x.coin_id = c → x.timestamp ≤ r.timestamp :=
  latestFor_go_max c facts none r hr

theorem latestStep_isSome (c : Nat) (acc : Option FactRow) (x : FactRow)
    (h : acc.isSome) : (latestStep c acc x).isSome := by
  rcases latestStep_cases c acc x with hc | ⟨hc, _⟩ <;> rw [hc]
  · exact h
  · rfl

theorem latestFor_go_isSome (c : Nat) :
    ∀ (l : List FactRow) (acc : Option FactRow),
      acc.isSome → (l.foldl (latestStep c) acc).isSome := by
  intro l
  induction l with
  | nil => intro acc h; exact h
  | cons x xs ih =>
    intro acc h
    exact ih (latestStep c acc x) (latestStep_isSome c acc x h)

theorem latestFor_isSome (facts : List FactRow) (c : Nat)
    (h : ∃ r ∈ facts, r.coin_id = c) : (latestSnapshotFor facts c).isSome := by
  obtain ⟨r, hr, hrc⟩ := h
  unfold latestSnapshotFor
  induction facts with
  | nil => simp at hr
  | cons x xs ih =>
    rw [List.foldl_cons]
    rcases List.mem_cons.mp hr with h | h
    · subst h
      obtain ⟨b, hb, _⟩ := latestStep_some_hit c none r hrc
      exact latestFor_go_isSome c xs _ (by rw [hb]; rfl)
    · by_cases hx : (latestStep c none x).isSome
      · exact latestFor_go_isSome c xs _ hx
      · have hnone : latestStep c none x = none := by
          cases hlx : latestStep c none x
          · rfl
          · rw [hlx] at hx; simp at hx
        rw [hnone]
        exact ih h

theorem mem_snapshotCoinIds (facts : List FactRow) (c : Nat) :
    c ∈ snapshotCoinIds facts ↔ ∃ r ∈ facts, r.coin_id = c := by
  unfold snapshotCoinIds
  rw [List.mem_mergeSort, List.mem_dedup, List.mem_map]

theorem snapshotCoinIds_nodup (facts : List FactRow) :
    (snapshotCoinIds facts).Nodup :=
  ((List.mergeSort_perm _ _).nodup_iff).mpr (List.nodup_dedup _)

theorem countP_filterMap_latest_zero (facts : List FactRow) (c : Nat) :
    ∀ (ids : List Nat), c ∉ ids →
      ((ids.filterMap (latestSnapshotFor facts)).countP
        (fun r => r.coin_id == c)) = 0 := by
  intro ids
  induction ids with
  | nil => intro _; simp
  | cons i is ih =>
    intro hni
    have hic : i ≠ c := fun h => hni (h ▸ List.mem_cons_self i is)
    have hnis : c ∉ is := fun h => hni (List.mem_cons_of_mem i h)
    rw [List.filterMap_cons]
    cases hfi : latestSnapshotFor facts i with
    | none => exact ih hnis
    | some r =>
      have hrc : r.coin_id = i := latestFor_coin facts i r hfi
      rw [List.countP_cons]
      have : (r.coin_id == c) = false := by
        simp [hrc, hic]
      simp only [this, if_false]
      simpa using ih hnis

theorem countP_filterMap_latest_one (facts : List FactRow) (c : Nat) :
    ∀ (ids : List Nat), ids.Nodup → c ∈ ids → (latestSnapshotFor facts c).isSome →
      ((ids.filterMap (latestSnapshotFor facts)).countP
        (fun r => r.coin_id == c)) = 1 := by
  intro ids
  induction ids with
  | nil => intro _ h; simp at h
  | cons i is ih =>
    intro hnd hmem hsome
    rw [List.filterMap_cons]
    by_cases hic : i = c
    · obtain ⟨r, hr⟩ := Option.isSome_iff_exists.mp hsome
      rw [hic, hr]
      have hrc : r.coin_id = c := latestFor_coin facts c r hr
      have hnis : c ∉ is := by rw [← hic]; exact (List.nodup_cons.mp hnd).1
      rw [List.countP_cons]
      rw [countP_filterMap_latest_zero facts c is hnis]
      simp [hrc]
    · have hmem' : c ∈ is := by
        rcases List.mem_cons.mp hmem with h | h
        · exact absurd h.symm hic
        · exact h
      have hrec := ih (List.nodup_cons.mp hnd).2 hmem' hsome
      cases hfi : latestSnapshotFor facts i with
      | none => simp only [hfi]; exact hrec
      | some r =>
        have hrc : r.coin_id = i := latestFor_coin facts i r hfi
        simp only [hfi]
        rw [List.countP_cons]
        have hbeq : (r.coin_id == c) = false := by simp [hrc, hic]
        simp only [hbeq, if_false]
        simpa using hrec

/-- C1 (amended): for every asset with at least one Market Snapshot row, the
materialized view `mv_latest_market_data` contains exactly one row for that
asset, and that row is a snapshot of the asset with the maximum timestamp.
The view carries only `fact_market_data` columns: it is not joined with the
asset dimension (see `C1_counterexample`). -/
theorem C1_latest_view_one_row_per_asset (db : WarehouseState) (c : Nat)
    (h : ∃ r ∈ db.fact_market_data, r.coin_id = c) :
    ((refreshLatestView db).countP (fun r => r.coin_id == c)) = 1 ∧
    ∀ r ∈ refreshLatestView db, r.coin_id = c →
      r ∈ db.fact_market_data ∧
      ∀ x ∈ db.fact_market_data, x.coin_id = c → x.timestamp ≤ r.timestamp := by
  constructor
  · exact countP_filterMap_latest_one db.fact_market_data c
      (snapshotCoinIds db.fact_market_data)
      (snapshotCoinIds_nodup db.fact_market_data)
      ((mem_snapshotCoinIds db.fact_market_data c).mpr h)
      (latestFor_isSome db.fact_market_data c h)
  · intro r hr hrc
    obtain ⟨i, _, hfi⟩ := List.mem_filterMap.mp hr
    have hri : r.coin_id = i := latestFor_coin db.fact_market_data i r hfi
    have hioc : i = c := by rw [← hri]; exact hrc
    subst hioc
    exact ⟨latestFor_mem db.fact_market_data i r hfi,
      fun x hx hxc => latestFor_max db.fact_market_data i r hfi x hx hxc⟩

/-- Witness for `C1_latest_view_one_row_per_asset` at a concrete warehouse state. -/
theorem C1_witness :
    (∃ r ∈ ([⟨1, 10, 100, 0, 0, 0, 0⟩, ⟨1, 20, 110, 0, 0, 0, 0⟩] : List FactRow),
        r.coin_id = 1) ∧
    ((refreshLatestView ⟨[], [⟨1, 10, 100, 0, 0, 0, 0⟩, ⟨1, 20, 110, 0, 0, 0, 0⟩]⟩).countP
        (fun r => r.coin_id == 1)) = 1 :=
  ⟨by decide,
    (C1_latest_view_one_row_per_asset
      ⟨[], [⟨1, 10, 100, 0, 0, 0, 0⟩, ⟨1, 20, 110, 0, 0, 0, 0⟩]⟩ 1 (by decide)).1⟩

/-- C1 counterexample: the claim says the view row carries the asset's
metadata (a join with the Asset dimension).  The view's defining query reads
only `fact_market_data`: two warehouse states whose asset dimensions differ
(here, in the asset's symbol) yield identical view contents, so the view
cannot carry any asset metadata. -/
theorem C1_counterexample :
    ([⟨1, "bitcoin", "btc", "Bitcoin", "img", 1⟩] : List DimCoinRow) ≠
      [⟨1, "bitcoin", "eth", "Bitcoin", "img", 1⟩] ∧
    refreshLatestView ⟨[⟨1, "bitcoin", "btc", "Bitcoin", "img", 1⟩],
        [⟨1, 10, 100, 0, 0, 0, 0⟩]⟩ =
      refreshLatestView ⟨[⟨1, "bitcoin", "eth", "Bitcoin", "img", 1⟩],
        [⟨1, 10, 100, 0, 0, 0, 0⟩]⟩ := by
  constructor
  · decide
  · rfl

/-! ## Live-price WebSocket message handling

Embedding of the `onmessage` handler of `useLivePrices`
(frontend/src/hooks/use-watchlist.ts):

  ws.onmessage = (event) => {
    try {
      const data = JSON.parse(event.data);
      if (data.type === "price_update" && data.prices) {
        setPrices((prev) => ({ ...prev, ...data.prices }));
      }
    } catch {}
  };

JavaScript semantics that matter here: `data.prices` only needs to be truthy
(any non-empty string, any object — including an empty one — or a non-zero
number passes the guard), and the object spread `{ ...prev, ...data.prices }`
copies the own enumerable entries of whatever `data.prices` is, verbatim.
-/

/-- A parsed JSON value.  Objects keep their fields as an ordered list. -/
inductive Json where
  | null
  | bool (b : Bool)
  | num (q : ℚ)
  | str (s : String)
  | arr (elems : List Json)
  | obj (fields : List (String × Json))
deriving Repr

/-- JavaScript truthiness of a parsed JSON value (`undefined` is handled by
the callers as the missing-field case). -/
def truthy : Json → Bool
  | .null => false
  | .bool b => b
  | .num q => q != 0
  | .str s => s != ""
  | .arr _ => true
  | .obj _ => true

/-- One step of scanning an entry list for a key; a later occurrence of the
key overrides an earlier one, as in the object `JSON.parse` builds. -/
def lookupStep (k : String) (acc : Option Json) (kv : String × Json) : Option Json :=
  if kv.1 == k then some kv.2 else acc

/-- Property access `o.k` on a parsed value: objects give the named field
(`JSON.parse` keeps the last duplicate), everything else gives `undefined`,
modelled as `none`. -/
def getField (j : Json) (k : String) : Option Json :=
  match j with
  | .obj kvs => kvs.foldl (lookupStep k) none
  | _ => none

/-- Own enumerable entries of a value, as enumerated by an object spread
`{...v}`: objects give their fields, arrays and strings their indexed
elements, primitives nothing. -/
def ownEntries : Json → List (String × Json)
  | .obj kvs => kvs
  | .arr xs => xs.enum.map (fun p => (toString p.1, p.2))
  | .str s => s.toList.enum.map (fun p => (toString p.1, Json.str (String.singleton p.2)))
  | _ => []

/-- Assigning one key on a JS object: overwrite an existing key in place,
otherwise append it. -/
def setKey (m : List (String × Json)) (k : String) (v : Json) : List (String × Json) :=
  if m.any (fun kv => kv.1 == k) then
    m.map (fun kv => if kv.1 == k then (k, v) else kv)
  else m ++ [(k, v)]

/-- The object spread `{ ...prev, ...incoming }`: entries of `incoming` are
assigned onto `prev` left to right. -/
def mergeEntries (m : List (String × Json)) (kvs : List (String × Json)) :
    List (String × Json) :=
  kvs.foldl (fun acc kv => setKey acc kv.1 kv.2) m

/-- Reading a symbol's entry from the price map (JS property lookup). -/
def lookupKey (m : List (String × Json)) (k : String) : Option Json :=
  m.foldl (lookupStep k) none

/-- Tests whether a parsed value is exactly the string "price_update"
(the `data.type === "price_update"` comparison). -/
def isPriceUpdateStr : Json → Bool
  | .str s => s == "price_update"
  | _ => false

/-- The `onmessage` handler: `none` models a frame whose payload fails
`JSON.parse` (the catch block swallows the error and the map is untouched);
a parsed `data` updates the map only when `data.type === "price_update"`
and `data.prices` is truthy. -/
def handleMessage (prices : List (String × Json)) (msg : Option Json) :
    List (String × Json) :=
  match msg with
  | none => prices
  | some data =>
    match getField data "type", getField data "prices" with
    | some t, some p =>
      if isPriceUpdateStr t && truthy p then mergeEntries prices (ownEntries p)
      else prices
    | _, _ => prices

/-- The message shape named by the claim: an object whose `type` field is the
string "price_update" and whose `prices` field is an object all of whose
values are numbers. -/
def isPriceUpdateShape (j : Json) : Bool :=
  match getField j "type", getField j "prices" with
  | some (Json.str t), some (Json.obj kvs) =>
    t == "price_update" && kvs.all (fun kv => match kv.2 with
      | Json.num _ => true
      | _ => false)
  | _, _ => false

theorem isPriceUpdateStr_iff (t : Json) :
    isPriceUpdateStr t = true ↔ t = Json.str "price_update" := by
  cases t <;> simp [isPriceUpdateStr]

/-- C2 counterexample: a parsable message whose `type` is "price_update" and
whose `prices` field is a truthy object that is NOT of the claimed shape
(its value is a string, not a number).  The claim says any such message is
ignored and leaves the price map unchanged; the handler merges it verbatim. -/
theorem C2_counterexample :
    isPriceUpdateShape (Json.obj [("type", Json.str "price_update"),
        ("prices", Json.obj [("btc", Json.str "high")])]) = false ∧
    handleMessage [] (some (Json.obj [("type", Json.str "price_update"),
        ("prices", Json.obj [("btc", Json.str "high")])])) =
      [("btc", Json.str "high")] ∧
    [("btc", Json.str "high")] ≠ ([] : List (String × Json)) := by
  refine ⟨rfl, rfl, ?_⟩
  simp

/-- C2 (amended): an unparsable frame, a message whose `type` field is not the
string "price_update", a message with no `prices` field, and a message whose
`prices` field is falsy are all ignored without error and leave the price map
unchanged; a message of the claimed shape `{ type: "price_update", prices:
{ sym: number, ... } }` has its prices object merged into the map (an empty
prices object passes the guard but leaves the map unchanged).  Messages whose
truthy `prices` value is not a number map are, however, merged verbatim
rather than ignored (see `C2_counterexample`). -/
theorem C2_message_guard (m : List (String × Json)) :
    (handleMessage m none = m) ∧
    (∀ j, (∀ t, getField j "type" = some t → isPriceUpdateStr t = false) →
      handleMessage m (some j) = m) ∧
    (∀ j, getField j "prices" = none → handleMessage m (some j) = m) ∧
    (∀ j p, getField j "prices" = some p → truthy p = false →
      handleMessage m (some j) = m) ∧
    (∀ j kvs, isPriceUpdateShape j = true →
      getField j "prices" = some (Json.obj kvs) →
      handleMessage m (some j) = mergeEntries m kvs) ∧
    (∀ j, isPriceUpdateShape j = true →
      getField j "prices" = some (Json.obj []) →
      handleMessage m (some j) = m) := by
  have hunfold : ∀ j, handleMessage m (some j) =
      match getField j "type", getField j "prices" with
      | some t, some p =>
        if isPriceUpdateStr t && truthy p then mergeEntries m (ownEntries p)
        else m
      | _, _ => m := fun _ => rfl
  have hmerge : ∀ j kvs, isPriceUpdateShape j = true →
      getField j "prices" = some (Json.obj kvs) →
      handleMessage m (some j) = mergeEntries m kvs := by
    intro j kvs hshape hP
    rw [hunfold j]
    unfold isPriceUpdateShape at hshape
    cases hT : getField j "type" with
    | none => rw [hT, hP] at hshape; simp at hshape
    | some t =>
      rw [hT, hP] at hshape
      cases t with
      | str s =>
        rw [hP]
        have hs : s = "price_update" := by
          by_contra hne
          simp [hne] at hshape
        subst hs
        simp [isPriceUpdateStr, truthy, ownEntries]
      | null => simp at hshape
      | bool b => simp at hshape
      | num q => simp at hshape
      | arr xs => simp at hshape
      | obj kvs2 => simp at hshape
  refine ⟨rfl, ?_, ?_, ?_, hmerge, ?_⟩
  · intro j hty
    rw [hunfold j]
    cases hT : getField j "type" with
    | none => rfl
    | some t =>
      cases hP : getField j "prices" with
      | none => rfl
      | some p => simp [hty t hT]
  · intro j hP
    rw [hunfold j, hP]
    cases hT : getField j "type" with
    | none => rfl
    | some t => rfl
  · intro j p hP htr
    rw [hunfold j, hP]
    cases hT : getField j "type" with
    | none => rfl
    | some t => simp [htr]
  · intro j hshape hP
    rw [hmerge j [] hshape hP]
    rfl

theorem foldl_lookup_not_mem (k : String) :
    ∀ (l : List (String × Json)) (init : Option Json),
      k ∉ l.map Prod.fst → l.foldl (lookupStep k) init = init := by
  intro l
  induction l with
  | nil => intro init _; rfl
  | cons kv t ih =>
    intro init hk
    have h1 : kv.1 ≠ k := by
      intro he
      exact hk (by rw [← he]; exact List.mem_map_of_mem Prod.fst (List.mem_cons_self kv t))
    have h2 : k ∉ t.map Prod.fst := fun h => hk (List.mem_cons_of_mem _ h)
    rw [List.foldl_cons]
    have : lookupStep k init kv = init := by
      unfold lookupStep
      simp [h1]
    rw [this]
    exact ih init h2

theorem foldl_lookup_init_indep (k : String) :
    ∀ (l : List (String × Json)), k ∈ l.map Prod.fst →
      ∀ (i1 i2 : Option Json), l.foldl (lookupStep k) i1 = l.foldl (lookupStep k) i2 := by
  intro l
  induction l with
  | nil => intro hk; simp at hk
  | cons kv t ih =>
    intro hk i1 i2
    rw [List.foldl_cons, List.foldl_cons]
    by_cases hmem : k ∈ t.map Prod.fst
    · exact ih hmem _ _
    · have h1 : kv.1 = k := by
        rcases List.mem_map.mp hk with ⟨x, hx, hxk⟩
        rcases List.mem_cons.mp hx with h | h
        · rw [h] at hxk; exact hxk
        · exact absurd (hxk ▸ List.mem_map_of_mem Prod.fst h) hmem
      unfold lookupStep
      simp [h1]

theorem lookup_map_set (k : String) (v : Json) :
    ∀ (m : List (String × Json)) (i : Option Json),
      ((m.map (fun kv => if kv.1 == k then (k, v) else kv)).foldl (lookupStep k) i)
        = if k ∈ m.map Prod.fst then some v else i := by
  intro m
  induction m with
  | nil => intro i; simp
  | cons kv t ih =>
    intro i
    rw [List.map_cons, List.foldl_cons]
    by_cases h1 : kv.1 = k
    · have hif : (if kv.1 == k then (k, v) else kv) = (k, v) := by simp [h1]
      rw [hif]
      have hstep : lookupStep k i (k, v) = some v := by unfold lookupStep; simp
      rw [hstep, ih]
      have hmem : k ∈ (kv :: t).map Prod.fst := by
        rw [← h1]; exact List.mem_map_of_mem Prod.fst (List.mem_cons_self kv t)
      rw [if_pos hmem]
      split <;> rfl
    · have hif : (if kv.1 == k then (k, v) else kv) = kv := by simp [h1]
      rw [hif]
      have hstep : lookupStep k i kv = i := by unfold lookupStep; simp [h1]
      rw [hstep, ih]
      have hmem : k ∈ (kv :: t).map Prod.fst ↔ k ∈ t.map Prod.fst := by
        simp [List.mem_cons]
        intro he
        exact absurd he.symm h1
      by_cases ht : k ∈ t.map Prod.fst
      · rw [if_pos ht, if_pos (hmem.mpr ht)]
      · rw [if_neg ht, if_neg (fun h => ht (hmem.mp h))]

theorem lookup_map_set_other (k k' : String) (v : Json) (hne : k' ≠ k) :
    ∀ (m : List (String × Json)) (i : Option Json),
      ((m.map (fun kv => if kv.1 == k then (k, v) else kv)).foldl (lookupStep k') i)
        = m.foldl (lookupStep k') i := by
  intro m
  induction m with
  | nil => intro i; rfl
  | cons kv t ih =>
    intro i
    rw [List.map_cons, List.foldl_cons, List.foldl_cons]
    have hkk : k ≠ k' := Ne.symm hne
    by_cases h1 : kv.1 = k
    · have hif : (if kv.1 == k then (k, v) else kv) = (k, v) := by simp [h1]
      rw [hif]
      have hs1 : lookupStep k' i (k, v) = i := by
        unfold lookupStep; simp [hkk]
      have hs2 : lookupStep k' i kv = i := by
        unfold lookupStep; simp [h1, hkk]
      rw [hs1, hs2, ih]
    · have hif : (if kv.1 == k then (k, v) else kv) = kv := by simp [h1]
      rw [hif, ih]

theorem any_key_iff (m : List (String × Json)) (k : String) :
    (m.any (fun kv => kv.1 == k)) = true ↔ k ∈ m.map Prod.fst := by
  rw [List.any_eq_true]
  constructor
  · rintro ⟨kv, hkv, hk⟩
    rw [← beq_iff_eq.mp hk]
    exact List.mem_map_of_mem Prod.fst hkv
  · intro h
    rcases List.mem_map.mp h with ⟨kv, hkv, hk⟩
    exact ⟨kv, hkv, beq_iff_eq.mpr hk⟩

theorem lookupKey_setKey_self (m : List (String × Json)) (k : String) (v : Json) :
    lookupKey (setKey m k v) k = some v := by
  unfold setKey lookupKey
  split
  · next h =>
    rw [lookup_map_set]
    rw [if_pos ((any_key_iff m k).mp h)]
  · rw [List.foldl_append]
    simp [lookupStep]

theorem lookupKey_setKey_other (m : List (String × Json)) (k k' : String)
    (v : Json) (hne : k' ≠ k) :
    lookupKey (setKey m k v) k' = lookupKey m k' := by
  unfold setKey lookupKey
  split
  · exact lookup_map_set_other k k' v hne m none
  · rw [List.foldl_append]
    simp [lookupStep, Ne.symm hne]

theorem keys_setKey_superset (m : List (String × Json)) (k : String) (v : Json) :
    ∀ k' ∈ m.map Prod.fst, k' ∈ (setKey m k v).map Prod.fst := by
  intro k' hk'
  unfold setKey
  split
  · rw [List.map_map]
    have hcong : List.map (Prod.fst ∘ fun kv => if kv.1 == k then (k, v) else kv) m
        = List.map Prod.fst m := by
      refine List.map_congr_left ?_
      intro kv _
      by_cases h1 : kv.1 = k
      · simp [Function.comp, h1]
      · simp [Function.comp, h1]
    rw [hcong]
    exact hk'
  · rw [List.map_append]
    exact List.mem_append_left _ hk'

theorem lookup_merge_not_mem (k : String) :
    ∀ (kvs m : List (String × Json)), k ∉ kvs.map Prod.fst →
      lookupKey (mergeEntries m kvs) k = lookupKey m k := by
  intro kvs
  induction kvs with
  | nil => intro m _; rfl
  | cons kv rest ih =>
    intro m hk
    have h1 : kv.1 ≠ k := by
      intro he
      exact hk (by rw [← he]; exact List.mem_map_of_mem Prod.fst (List.mem_cons_self kv rest))
    have h2 : k ∉ rest.map Prod.fst := fun h => hk (List.mem_cons_of_mem _ h)
    show lookupKey (mergeEntries (setKey m kv.1 kv.2) rest) k = lookupKey m k
    rw [ih (setKey m kv.1 kv.2) h2]
    exact lookupKey_setKey_other m kv.1 k kv.2 (fun h => h1 h.symm)

theorem lookup_merge_mem (k : String) :
    ∀ (kvs m : List (String × Json)), k ∈ kvs.map Prod.fst →
      lookupKey (mergeEntries m kvs) k = lookupKey kvs k := by
  intro kvs
  induction kvs with
  | nil => intro m hk; simp at hk
  | cons kv rest ih =>
    intro m hk
    show lookupKey (mergeEntries (setKey m kv.1 kv.2) rest) k = _
    by_cases hmem : k ∈ rest.map Prod.fst
    · rw [ih (setKey m kv.1 kv.2) hmem]
      show _ = (kv :: rest).foldl (lookupStep k) none
      rw [List.foldl_cons]
      exact foldl_lookup_init_indep k rest hmem none (lookupStep k none kv)
    · have h1 : kv.1 = k := by
        rcases List.mem_map.mp hk with ⟨x, hx, hxk⟩
        rcases List.mem_cons.mp hx with h | h
        · rw [h] at hxk; exact hxk
        · exact absurd (hxk ▸ List.mem_map_of_mem Prod.fst h) hmem
      rw [lookup_merge_not_mem k rest (setKey m kv.1 kv.2) hmem]
      rw [h1, lookupKey_setKey_self]
      show _ = (kv :: rest).foldl (lookupStep k) none
      rw [List.foldl_cons, foldl_lookup_not_mem k rest _ hmem]
      unfold lookupStep
      simp [h1]

theorem keys_merge_superset :
    ∀ (kvs m : List (String × Json)) (k : String),
      k ∈ m.map Prod.fst → k ∈ (mergeEntries m kvs).map Prod.fst := by
  intro kvs
  induction kvs with
  | nil => intro m k hk; exact hk
  | cons kv rest ih =>
    intro m k hk
    exact ih (setKey m kv.1 kv.2) k (keys_setKey_superset m kv.1 kv.2 k hk)

/-- C10: merging an incoming prices object into the price map is
frame-preserving: a symbol present in the incoming object reads back the
incoming value (its last occurrence, as in the parsed JS object), every other
symbol reads back exactly its old entry, and no key of the prior map is ever
removed. -/
theorem C10_merge_frame (m kvs : List (String × Json)) (k : String) :
    (k ∈ kvs.map Prod.fst →
      lookupKey (mergeEntries m kvs) k = lookupKey kvs k) ∧
    (k ∉ kvs.map Prod.fst →
      lookupKey (mergeEntries m kvs) k = lookupKey m k) ∧
    (k ∈ m.map Prod.fst → k ∈ (mergeEntries m kvs).map Prod.fst) :=
  ⟨fun h => lookup_merge_mem k kvs m h,
   fun h => lookup_merge_not_mem k kvs m h,
   fun h => keys_merge_superset kvs m k h⟩

/-- Witness for `C10_merge_frame` at a concrete map and incoming object. -/
theorem C10_witness :
    ("btc" ∈ ([("btc", Json.num 3)] : List (String × Json)).map Prod.fst ∧
      lookupKey (mergeEntries [("btc", Json.num 1), ("eth", Json.num 2)]
        [("btc", Json.num 3)]) "btc" = lookupKey [("btc", Json.num 3)] "btc") ∧
    ("eth" ∉ ([("btc", Json.num 3)] : List (String × Json)).map Prod.fst ∧
      lookupKey (mergeEntries [("btc", Json.num 1), ("eth", Json.num 2)]
        [("btc", Json.num 3)]) "eth" =
        lookupKey [("btc", Json.num 1), ("eth", Json.num 2)] "eth") :=
  ⟨⟨by simp, (C10_merge_frame [("btc", Json.num 1), ("eth", Json.num 2)]
      [("btc", Json.num 3)] "btc").1 (by simp)⟩,
   ⟨by simp, (C10_merge_frame [("btc", Json.num 1), ("eth", Json.num 2)]
      [("btc", Json.num 3)] "eth").2.1 (by simp)⟩⟩

/-- Witness for `C2_message_guard`: a parsed message that is not an object has
no `prices` field and leaves a concrete price map unchanged. -/
theorem C2_witness :
    handleMessage [("btc", Json.num 1)] (some (Json.num 5)) = [("btc", Json.num 1)] :=
  (C2_message_guard [("btc", Json.num 1)]).2.2.1 (Json.num 5) rfl

/-! ## Compare-page fallback metrics

Embedding of the client-side fallback computations in
`frontend/src/app/compare/page.tsx` (`CompareContent.metrics`), over the
filtered (non-null) price series of a selected coin:

  let annualizedVolatility = volEntry?.volatility ?? null;
  if (annualizedVolatility === null && prices.length > 2) {
    const logReturns = [];
    for (let i = 1; i < prices.length; i++) {
      const prev = prices[i - 1].price_usd!;
      const curr = prices[i].price_usd!;
      if (prev > 0 && curr > 0) logReturns.push(Math.log(curr / prev));
    }
    if (logReturns.length > 1) {
      const mean = logReturns.reduce((a, b) => a + b, 0) / logReturns.length;
      const variance = logReturns.reduce((a, b) => a + (b - mean) ** 2, 0) /
        (logReturns.length - 1);
      annualizedVolatility = Math.sqrt(variance) * Math.sqrt(365) * 100;
    }
  }

  let maxDrawdown = volEntry?.max_drawdown ?? null;
  if (maxDrawdown === null && prices.length > 1) {
    let peak = prices[0].price_usd!;
    let worstDrawdown = 0;
    for (const p of prices) {
      if (p.price_usd! > peak) peak = p.price_usd!;
      const dd = (p.price_usd! - peak) / peak;
      if (dd < worstDrawdown) worstDrawdown = dd;
    }
    maxDrawdown = worstDrawdown * 100;
  }
-/

/-- Daily log-returns of consecutive price pairs, skipping pairs with a
non-positive price (the `prev > 0 && curr > 0` guard). -/
noncomputable def logReturns : List ℝ → List ℝ
  | p0 :: p1 :: rest =>
    (if 0 < p0 ∧ 0 < p1 then [Real.log (p1 / p0)] else []) ++ logReturns (p1 :: rest)
  | _ => []

/-- Mean of a list (`reduce(...) / length`). -/
noncomputable def listMean (xs : List ℝ) : ℝ := xs.sum / xs.length

/-- Sample variance with the `length - 1` divisor, as in the source. -/
noncomputable def sampleVariance (xs : List ℝ) : ℝ :=
  ((xs.map (fun b => (b - listMean xs) ^ 2)).sum) / ((xs.length : ℝ) - 1)

/-- The annualized-volatility metric: the server value when present, else the
client fallback guarded by `prices.length > 2` and `logReturns.length > 1`. -/
noncomputable def annualizedVolatilityMetric (server : Option ℝ)
    (prices : List ℝ) : Option ℝ :=
  match server with
  | some v => some v
  | none =>
    if 2 < prices.length then
      if 1 < (logReturns prices).length then
        some (Real.sqrt (sampleVariance (logReturns prices)) * Real.sqrt 365 * 100)
      else none
    else none

/-- One iteration of the drawdown loop: raise the running peak, then compare
the current drawdown against the worst one seen. -/
noncomputable def ddStep (s : ℝ × ℝ) (p : ℝ) : ℝ × ℝ :=
  let peak := if s.1 < p then p else s.1
  let dd := (p - peak) / peak
  (peak, if dd < s.2 then dd else s.2)

/-- The client max-drawdown fallback, guarded by `prices.length > 1`. -/
noncomputable def maxDrawdownFallback : List ℝ → Option ℝ
  | [] => none
  | p0 :: rest =>
    if 1 < (p0 :: rest).length then
      some (((p0 :: rest).foldl ddStep (p0, 0)).2 * 100)
    else none

/-- The max-drawdown metric: the (possibly null) server value when present,
else the client fallback. -/
noncomputable def maxDrawdownMetric (server : Option ℝ) (prices : List ℝ) :
    Option ℝ :=
  match server with
  | some v => some v
  | none => maxDrawdownFallback prices

/-- The running drawdown values `(price - running peak) / running peak`,
one per price point. -/
noncomputable def ddList : ℝ → List ℝ → List ℝ
  | _, [] => []
  | peak, p :: rest =>
    (p - if peak < p then p else peak) / (if peak < p then p else peak)
      :: ddList (if peak < p then p else peak) rest

theorem ddList_cons (peak p : ℝ) (rest : List ℝ) :
    ddList peak (p :: rest)
      = (p - if peak < p then p else peak) / (if peak < p then p else peak)
        :: ddList (if peak < p then p else peak) rest := rfl

theorem maxDrawdownFallback_cons (p0 : ℝ) (rest : List ℝ) :
    maxDrawdownFallback (p0 :: rest)
      = if 1 < (p0 :: rest).length then
          some (((p0 :: rest).foldl ddStep (p0, 0)).2 * 100)
        else none := rfl

theorem logReturns_length (prices : List ℝ) (hpos : ∀ p ∈ prices, 0 < p) :
    (logReturns prices).length = prices.length - 1 := by
  induction prices with
  | nil => rfl
  | cons p0 t ih =>
    cases t with
    | nil => rfl
    | cons p1 rest =>
      have h0 : 0 < p0 := hpos p0 (List.mem_cons_self _ _)
      have h1 : 0 < p1 := hpos p1 (List.mem_cons_of_mem _ (List.mem_cons_self _ _))
      have htl : ∀ p ∈ p1 :: rest, 0 < p := fun p hp => hpos p (List.mem_cons_of_mem _ hp)
      show (logReturns (p0 :: p1 :: rest)).length = _
      unfold logReturns
      rw [if_pos ⟨h0, h1⟩]
      rw [List.length_append]
      rw [ih htl]
      simp
      omega

/-- C3 (amended): when no server volatility exists, all filtered prices are
positive and there are more than 2 of them, the fallback computes the sample
standard deviation of the daily log-returns times √365, scaled by 100 into a
percentage, and the result is always ≥ 0.  (The claim omits the factor 100;
see `C3_counterexample`.) -/
theorem C3_volatility_fallback (prices : List ℝ) (h2 : 2 < prices.length)
    (hpos : ∀ p ∈ prices, 0 < p) :
    annualizedVolatilityMetric none prices
      = some (Real.sqrt (sampleVariance (logReturns prices))
          * Real.sqrt 365 * 100) ∧
    ∀ v, annualizedVolatilityMetric none prices = some v → 0 ≤ v := by
  have hlen : 1 < (logReturns prices).length := by
    rw [logReturns_length prices hpos]
    omega
  have heq : annualizedVolatilityMetric none prices
      = some (Real.sqrt (sampleVariance (logReturns prices))
          * Real.sqrt 365 * 100) := by
    unfold annualizedVolatilityMetric
    rw [if_pos h2, if_pos hlen]
  refine ⟨heq, fun v hv => ?_⟩
  rw [heq] at hv
  cases hv
  have hs1 : 0 ≤ Real.sqrt (sampleVariance (logReturns prices)) := Real.sqrt_nonneg _
  have hs2 : 0 ≤ Real.sqrt 365 := Real.sqrt_nonneg _
  positivity

/-- Witness for `C3_volatility_fallback` on the concrete series [1, e, 1]. -/
theorem C3_witness :
    (2 < ([1, Real.exp 1, 1] : List ℝ).length) ∧
    annualizedVolatilityMetric none [1, Real.exp 1, 1]
      = some (Real.sqrt (sampleVariance (logReturns [1, Real.exp 1, 1]))
          * Real.sqrt 365 * 100) :=
  ⟨by norm_num,
    (C3_volatility_fallback [1, Real.exp 1, 1] (by norm_num) (by
      intro p hp
      rcases List.mem_cons.mp hp with h | hp'
      · rw [h]; norm_num
      rcases List.mem_cons.mp hp' with h | hp''
      · rw [h]; exact Real.exp_pos 1
      rcases List.mem_cons.mp hp'' with h | hp3
      · rw [h]; norm_num
      · simp at hp3)).1⟩

theorem logReturns_example :
    logReturns [1, Real.exp 1, 1] = [1, -1] := by
  have he : (0 : ℝ) < Real.exp 1 := Real.exp_pos 1
  unfold logReturns
  rw [if_pos ⟨by norm_num, he⟩]
  unfold logReturns
  rw [if_pos ⟨he, by norm_num⟩]
  unfold logReturns
  simp [Real.log_exp, Real.log_inv]

theorem sampleVariance_example : sampleVariance [1, -1] = 2 := by
  unfold sampleVariance listMean
  norm_num

/-- C3 counterexample: on the series [1, e, 1] the fallback's value is
100 times the claim's "standard deviation of daily log-returns × √365". -/
theorem C3_counterexample :
    annualizedVolatilityMetric none [1, Real.exp 1, 1]
      ≠ some (Real.sqrt (sampleVariance (logReturns [1, Real.exp 1, 1]))
          * Real.sqrt 365) := by
  have h2 : (2 : ℕ) < ([1, Real.exp 1, 1] : List ℝ).length := by norm_num
  have hlen : 1 < (logReturns [1, Real.exp 1, 1]).length := by
    rw [logReturns_example]; norm_num
  have heq : annualizedVolatilityMetric none [1, Real.exp 1, 1]
      = some (Real.sqrt (sampleVariance (logReturns [1, Real.exp 1, 1]))
          * Real.sqrt 365 * 100) := by
    unfold annualizedVolatilityMetric
    rw [if_pos h2, if_pos hlen]
  rw [heq, logReturns_example, sampleVariance_example]
  intro h
  have h' : Real.sqrt 2 * Real.sqrt 365 * 100 = Real.sqrt 2 * Real.sqrt 365 :=
    Option.some.inj h
  have hp : 0 < Real.sqrt 2 * Real.sqrt 365 :=
    mul_pos (Real.sqrt_pos.mpr (by norm_num)) (Real.sqrt_pos.mpr (by norm_num))
  nlinarith

theorem ddFold_min : ∀ (l : List ℝ) (a w : ℝ),
    (l.foldl ddStep (a, w)).2 = (ddList a l).foldl min w := by
  intro l
  induction l with
  | nil => intro a w; rfl
  | cons p rest ih =>
    intro a w
    rw [List.foldl_cons]
    show (rest.foldl ddStep (ddStep (a, w) p)).2 = _
    have hstep : ddStep (a, w) p
        = ((if a < p then p else a),
           min w ((p - if a < p then p else a) / (if a < p then p else a))) := by
      unfold ddStep
      simp only
      congr 1
      by_cases h : (p - if a < p then p else a) / (if a < p then p else a) < w
      · rw [if_pos h, min_eq_right (le_of_lt h)]
      · rw [if_neg h, min_eq_left (not_lt.mp h)]
    rw [hstep, ih]
    rw [ddList_cons, List.foldl_cons]

theorem foldl_min_le_init : ∀ (l : List ℝ) (w : ℝ), l.foldl min w ≤ w := by
  intro l
  induction l with
  | nil => intro w; exact le_refl w
  | cons x t ih =>
    intro w
    rw [List.foldl_cons]
    exact le_trans (ih (min w x)) (min_le_left w x)

theorem ddList_chain_zero : ∀ (l : List ℝ) (a : ℝ),
    (∀ x ∈ l.head?, a ≤ x) → List.Chain' (· ≤ ·) l →
    ddList a l = List.replicate l.length 0 := by
  intro l
  induction l with
  | nil => intro a _ _; rfl
  | cons p rest ih =>
    intro a hhead hchain
    have hap : a ≤ p := hhead p rfl
    have hpeak : (if a < p then p else a) = p := by
      by_cases h : a < p
      · rw [if_pos h]
      · rw [if_neg h]
        exact le_antisymm hap (not_lt.mp h)
    unfold ddList
    rw [hpeak]
    have hdd : (p - p) / p = 0 := by rw [sub_self, zero_div]
    rw [hdd]
    rw [List.length_cons, List.replicate_succ]
    congr 1
    obtain ⟨hh, ht⟩ := List.chain'_cons'.mp hchain
    exact ih p hh ht

theorem foldl_min_replicate_zero : ∀ (n : ℕ),
    (List.replicate n (0 : ℝ)).foldl min 0 = 0 := by
  intro n
  induction n with
  | zero => rfl
  | succ k ih =>
    rw [List.replicate_succ, List.foldl_cons, min_self]
    exact ih

/-- C4 (amended): when no server max-drawdown exists and the filtered history
has more than one point, the fallback computes 100 times the most negative
running drawdown `(price - running peak) / peak` (a non-positive percentage,
not a fraction — see `C4_counterexample`); it is always ≤ 0 and equals 0 when
the price never falls below a prior running peak (a nondecreasing series). -/
theorem C4_drawdown_fallback (p0 : ℝ) (rest : List ℝ) (hne : rest ≠ []) :
    maxDrawdownMetric none (p0 :: rest)
      = some (((ddList p0 (p0 :: rest)).foldl min 0) * 100) ∧
    (∀ v, maxDrawdownMetric none (p0 :: rest) = some v → v ≤ 0) ∧
    (List.Chain' (· ≤ ·) (p0 :: rest) →
      maxDrawdownMetric none (p0 :: rest) = some 0) := by
  have hlen : 1 < (p0 :: rest).length := by
    have := List.length_pos.mpr hne
    simp only [List.length_cons]
    omega
  have heq : maxDrawdownMetric none (p0 :: rest)
      = some (((ddList p0 (p0 :: rest)).foldl min 0) * 100) := by
    show maxDrawdownFallback (p0 :: rest) = _
    rw [maxDrawdownFallback_cons, if_pos hlen, ddFold_min]
  refine ⟨heq, fun v hv => ?_, fun hchain => ?_⟩
  · rw [heq] at hv
    cases hv
    have hmin : ((ddList p0 (p0 :: rest)).foldl min 0) ≤ 0 := foldl_min_le_init _ 0
    nlinarith
  · rw [heq]
    have hdd : ddList p0 (p0 :: rest) = List.replicate (p0 :: rest).length 0 :=
      ddList_chain_zero (p0 :: rest) p0 (fun x hx => by cases hx; exact le_refl p0) hchain
    rw [hdd, foldl_min_replicate_zero]
    norm_num

/-- Witness for `C4_drawdown_fallback` on the nondecreasing series [100, 200]. -/
theorem C4_witness :
    (([200] : List ℝ) ≠ []) ∧
    maxDrawdownMetric none [(100 : ℝ), 200] = some 0 :=
  ⟨by simp,
    (C4_drawdown_fallback 100 [200] (by simp)).2.2 (by
      rw [List.chain'_cons]
      exact ⟨by norm_num, List.chain'_singleton 200⟩)⟩

/-- C4 counterexample: on the series [100, 50] the most negative running
drawdown fraction is -1/2, but the fallback stores -50 (a percentage):
the metric is not "expressed as a non-positive fraction". -/
theorem C4_counterexample :
    maxDrawdownMetric none [(100 : ℝ), 50] = some (-50) ∧
    ((ddList 100 [(100 : ℝ), 50]).foldl min 0) = -(1/2) ∧
    ((-50 : ℝ) ≠ -(1/2)) := by
  have h1 : ¬((100 : ℝ) < 100) := by norm_num
  have h2 : ¬((100 : ℝ) < 50) := by norm_num
  have hdd : ddList 100 [(100 : ℝ), 50] = [0, -(1/2)] := by
    rw [ddList_cons, if_neg h1, ddList_cons, if_neg h2]
    rw [show ddList ((100 : ℝ)) [] = [] from rfl]
    norm_num
  have hmin : ((ddList 100 [(100 : ℝ), 50]).foldl min 0) = -(1/2) := by
    rw [hdd]
    simp only [List.foldl_cons, List.foldl_nil, min_self]
    rw [min_eq_right (by norm_num : -(1/2 : ℝ) ≤ 0)]
  refine ⟨?_, hmin, by norm_num⟩
  show maxDrawdownFallback [(100 : ℝ), 50] = some (-50)
  rw [maxDrawdownFallback_cons, if_pos (by norm_num), ddFold_min, hmin]
  norm_num

/-! ## The live-price hook's connection lifecycle

State machine of `useLivePrices` (frontend/src/hooks/use-watchlist.ts):

  const connect = useCallback(() => {
    if (wsRef.current?.readyState === WebSocket.OPEN) return;
    const ws = new WebSocket(WS_URL);
    wsRef.current = ws;
    ws.onopen = () => setConnected(true);
    ws.onmessage = ...;
    ws.onclose = () => {
      setConnected(false);
      reconnectTimer.current = setTimeout(connect, 3000);
    };
    ws.onerror = () => ws.close();
  }, []);

  useEffect(() => {
    connect();
    return () => {
      clearTimeout(reconnectTimer.current);
      wsRef.current?.close();
    };
  }, [connect]);

The `opens` counter and the `delays` log record, respectively, every
`new WebSocket(...)` construction and the delay of every `setTimeout`
scheduled by `onclose`; they are observation variables, not program state.
-/

inductive WSReady where
  | connecting
  | opened
  | closing
  | closed
deriving DecidableEq, Repr

structure LiveState where
  connected : Bool
  socket : Option WSReady
  timer : Option Nat
  cleaned : Bool
  opens : Nat
  delays : List Nat
deriving DecidableEq, Repr

/-- The `connect` callback: return if the current socket is already OPEN,
otherwise construct a new WebSocket (readyState CONNECTING). -/
def connect (s : LiveState) : LiveState :=
  if s.socket = some WSReady.opened then s
  else { s with socket := some WSReady.connecting, opens := s.opens + 1 }

inductive WSEvent where
  | openEv
  | closeEv
  | errorEv
  | timerFire
  | cleanup
deriving DecidableEq, Repr

/-- One event of the hook's life: the socket's `open`, `close` and `error`
handlers, the reconnect timeout firing, and the effect cleanup.  The `close`
handler — note, unconditionally, with no cleaned-up guard — sets
`connected` to false and schedules `setTimeout(connect, 3000)`. -/
def step (s : LiveState) : WSEvent → LiveState
  | .openEv => { s with socket := some WSReady.opened, connected := true }
  | .closeEv =>
    { s with connected := false, socket := some WSReady.closed,
             timer := some 3000, delays := s.delays ++ [3000] }
  | .errorEv => { s with socket := some WSReady.closing }
  | .timerFire =>
    match s.timer with
    | some _ => connect { s with timer := none }
    | none => s
  | .cleanup =>
    { s with timer := none,
             socket := match s.socket with
               | some _ => some WSReady.closing
               | none => none,
             cleaned := true }

def run (s : LiveState) : List WSEvent → LiveState
  | [] => s
  | e :: es => run (step s e) es

/-- Which events can actually occur in a state: a socket only fires `open`
while connecting, fires `close` when it ceases to be open (including after an
explicit `close()` call, which is exactly how cleanup ends an open socket),
a timeout only fires while pending, and the effect cleanup runs once. -/
def canFire (s : LiveState) : WSEvent → Bool
  | .openEv => s.socket == some WSReady.connecting
  | .closeEv => s.socket == some WSReady.connecting
      || s.socket == some WSReady.opened
      || s.socket == some WSReady.closing
  | .errorEv => s.socket == some WSReady.connecting
      || s.socket == some WSReady.opened
  | .timerFire => s.timer.isSome
  | .cleanup => !s.cleaned

def validRun (s : LiveState) : List WSEvent → Bool
  | [] => true
  | e :: es => canFire s e && validRun (step s e) es

def initialState : LiveState :=
  { connected := false, socket := none, timer := none,
    cleaned := false, opens := 0, delays := [] }

/-- The hook right after mount: the effect has run `connect()` and the
socket's `open` event has fired. -/
def mountedState : LiveState := step (connect initialState) WSEvent.openEv

theorem step_delays (s : LiveState) (e : WSEvent) :
    (step s e).delays = s.delays ∨ (step s e).delays = s.delays ++ [3000] := by
  cases e with
  | openEv => left; rfl
  | closeEv => right; rfl
  | errorEv => left; rfl
  | timerFire =>
    cases ht : s.timer with
    | none => left; simp [step, ht]
    | some d =>
      left
      simp only [step, ht]
      unfold connect
      split <;> rfl
  | cleanup => left; rfl

/-- C5 (amended): after every disconnect (`close` event) a reconnect attempt
is always scheduled, but with the fixed delay 3000 ms: every delay the hook
ever schedules is the constant 3000, so the delay never grows
(see `C5_counterexample`). -/
theorem C5_reconnect_fixed_delay :
    (∀ s : LiveState, (step s WSEvent.closeEv).timer = some 3000 ∧
      (step s WSEvent.closeEv).delays = s.delays ++ [3000]) ∧
    (∀ (s : LiveState) (es : List WSEvent),
      s.delays.all (fun d => d == 3000) = true →
      ((run s es).delays.all (fun d => d == 3000)) = true) := by
  refine ⟨fun s => ⟨rfl, rfl⟩, ?_⟩
  intro s es
  induction es generalizing s with
  | nil => intro h; exact h
  | cons e t ih =>
    intro h
    show ((run (step s e) t).delays.all (fun d => d == 3000)) = true
    refine ih (step s e) ?_
    rcases step_delays s e with he | he <;> rw [he]
    · exact h
    · rw [List.all_append, h]
      rfl

/-- Witness for `C5_reconnect_fixed_delay` from the freshly mounted hook. -/
theorem C5_witness :
    (initialState.delays.all (fun d => d == 3000) = true) ∧
    ((run initialState [WSEvent.closeEv]).delays.all (fun d => d == 3000)) = true :=
  ⟨rfl, C5_reconnect_fixed_delay.2 initialState [WSEvent.closeEv] rfl⟩

/-- C5 counterexample: a feasible run with two disconnects schedules the
delays [3000, 3000] — the delay before successive reconnect attempts stays
constant instead of growing. -/
theorem C5_counterexample :
    validRun mountedState
      [WSEvent.closeEv, WSEvent.timerFire, WSEvent.openEv, WSEvent.closeEv] = true ∧
    (run mountedState
      [WSEvent.closeEv, WSEvent.timerFire, WSEvent.openEv, WSEvent.closeEv]).delays
      = [3000, 3000] ∧
    ¬ List.Chain' (· < ·) [3000, 3000] := by
  refine ⟨by decide, by decide, ?_⟩
  rw [List.chain'_cons]
  simp

/-- C6: the code violates the claim.  After the effect cleanup has run
(clearing the then-pending timer and closing the socket), the closing
socket's `close` event still fires, and the `onclose` handler — which has no
guard — schedules a fresh reconnect timer; when it fires, `connect()` opens
a brand-new WebSocket.  The run below is feasible, its cleanup does clear the
timer, yet a reconnect is scheduled after cleanup and the number of sockets
ever constructed grows from 1 to 2. -/
theorem C6_cleanup_leaks_reconnect :
    validRun mountedState
      [WSEvent.cleanup, WSEvent.closeEv, WSEvent.timerFire] = true ∧
    (run mountedState [WSEvent.cleanup]).cleaned = true ∧
    (run mountedState [WSEvent.cleanup]).timer = none ∧
    (run mountedState [WSEvent.cleanup, WSEvent.closeEv]).timer = some 3000 ∧
    mountedState.opens = 1 ∧
    (run mountedState
      [WSEvent.cleanup, WSEvent.closeEv, WSEvent.timerFire]).opens = 2 := by
  refine ⟨by decide, by decide, by decide, by decide, by decide, by decide⟩

/-! ## Null-versus-zero in the display layer

Embedding of `getCorrelationColor` and the cell text of `CorrelationHeatmap`
(components/charts/CorrelationHeatmap.tsx) and of the volatility chart's
`CustomTooltip` (components/charts/VolatilityChart.tsx). -/

/-- JavaScript rounding `Math.round`: nearest integer, ties toward positive infinity. -/
def jsRound (q : ℚ) : ℤ := ⌊q + 1 / 2⌋

/-- JavaScript formatting `Number.prototype.toFixed(2)`: sign, then the
absolute value rounded to two decimals (ties away from zero). -/
def toFixed2 (q : ℚ) : String :=
  let sign := if q < 0 then "-" else ""
  let n := (⌊|q| * 100 + 1 / 2⌋).toNat
  let ip := n / 100
  let fp := n % 100
  sign ++ toString ip ++ "." ++ (if fp < 10 then "0" ++ toString fp else toString fp)

/-- Cell colour of the correlation heatmap: a fixed dark slate for null,
otherwise a diverging interpolation on the clamped value. -/
def getCorrelationColor (value : Option ℚ) : String :=
  match value with
  | none => "#1e293b"
  | some v =>
    let clamped := max (-1) (min 1 v)
    if 0 ≤ clamped then
      let t := clamped
      let r := jsRound (0x33 + (0x04 - 0x33) * t)
      let g := jsRound (0x41 + (0x78 - 0x41) * t)
      let b := jsRound (0x55 + (0x57 - 0x55) * t)
      s!"rgb({r}, {g}, {b})"
    else
      let t := |clamped|
      let r := jsRound (0x33 + (0xbe - 0x33) * t)
      let g := jsRound (0x41 + (0x12 - 0x41) * t)
      let b := jsRound (0x55 + (0x3c - 0x55) * t)
      s!"rgb({r}, {g}, {b})"

/-- Text colour of a heatmap cell. -/
def getTextColor (value : Option ℚ) : String :=
  match value with
  | none => "#475569"
  | some _ => "#f1f5f9"

/-- Cell label of the heatmap: `value !== null ? value.toFixed(2) : "-"`. -/
def correlationCellText (value : Option ℚ) : String :=
  match value with
  | some v => toFixed2 v
  | none => "-"

/-- The always-rendered volatility line of the tooltip. -/
def volatilityLine (vol : ℚ) : String :=
  "Volatility: " ++ toFixed2 (vol * 100) ++ "%"

/-- The max-drawdown line, rendered only when `entry.max_drawdown !== null`. -/
def drawdownLine (md : Option ℚ) : Option String :=
  md.map (fun v => "Max Drawdown: " ++ toFixed2 (v * 100) ++ "%")

/-- The Sharpe-ratio line, rendered only when `entry.sharpe_ratio !== null`. -/
def sharpeLine (sr : Option ℚ) : Option String :=
  sr.map (fun v => "Sharpe Ratio: " ++ toFixed2 v)

/-- The lines of the volatility tooltip, top to bottom. -/
def tooltipLines (nm : String) (vol : ℚ) (md sr : Option ℚ) : List String :=
  [nm, volatilityLine vol] ++ (drawdownLine md).toList ++ (sharpeLine sr).toList

theorem toFixed2_zero : toFixed2 0 = "0.00" := by
  have h : (⌊|(0 : ℚ)| * 100 + 1 / 2⌋ : ℤ) = 0 := by norm_num
  simp only [toFixed2]
  rw [h]
  rw [if_neg (lt_irrefl (0 : ℚ))]
  rfl

theorem getCorrelationColor_zero :
    getCorrelationColor (some 0) = "rgb(51, 65, 85)" := by
  have hc : max (-1 : ℚ) (min 1 0) = 0 := by norm_num
  have h51 : jsRound ((0x33 : ℚ) + (0x04 - 0x33) * 0) = 51 := by
    unfold jsRound; norm_num
  have h65 : jsRound ((0x41 : ℚ) + (0x78 - 0x41) * 0) = 65 := by
    unfold jsRound; norm_num
  have h85 : jsRound ((0x55 : ℚ) + (0x57 - 0x55) * 0) = 85 := by
    unfold jsRound; norm_num
  simp only [getCorrelationColor, hc]
  rw [if_pos (le_refl (0 : ℚ))]
  rw [h51, h65, h85]
  rfl

/-- C8: the display layer distinguishes null from zero: a null correlation
cell gets a colour different from the colour of the value 0 and the label "-"
instead of "0.00"; a null max drawdown or Sharpe ratio is omitted from the
volatility tooltip, while a zero one would be rendered as "0.00". -/
theorem C8_null_not_zero :
    getCorrelationColor none = "#1e293b" ∧
    getCorrelationColor (some 0) = "rgb(51, 65, 85)" ∧
    getCorrelationColor none ≠ getCorrelationColor (some 0) ∧
    correlationCellText none = "-" ∧
    correlationCellText (some 0) = "0.00" ∧
    correlationCellText none ≠ correlationCellText (some 0) ∧
    (∀ nm vol sr, tooltipLines nm vol none sr
      = [nm, volatilityLine vol] ++ (sharpeLine sr).toList) ∧
    (∀ nm vol md, tooltipLines nm vol md none
      = [nm, volatilityLine vol] ++ (drawdownLine md).toList) ∧
    drawdownLine (some 0) = some "Max Drawdown: 0.00%" ∧
    sharpeLine (some 0) = some "Sharpe Ratio: 0.00" := by
  have hdraw : drawdownLine (some 0) = some "Max Drawdown: 0.00%" := by
    simp only [drawdownLine, Option.map, zero_mul, toFixed2_zero]
    rfl
  have hsharpe : sharpeLine (some 0) = some "Sharpe Ratio: 0.00" := by
    simp only [sharpeLine, Option.map, toFixed2_zero]
    rfl
  have hcell : correlationCellText (some 0) = "0.00" := by
    simp only [correlationCellText, toFixed2_zero]
  refine ⟨rfl, getCorrelationColor_zero, ?_, rfl, hcell, ?_, ?_, ?_, hdraw, hsharpe⟩
  · rw [getCorrelationColor_zero]
    decide
  · rw [hcell]
    decide
  · intro nm vol sr
    rfl
  · intro nm vol md
    simp [tooltipLines, sharpeLine]

/-! ## Per-table quality score

The backend endpoint aggregating per-table quality summaries is not part of
the source tree — only its consumers are: the `QualitySummary` shape in
`frontend/src/types/index.ts` and the display in
`frontend/src/app/quality/page.tsx`. -/

structure QualitySummary where
  table_name : String
  total_checks : ℕ
  passed : ℕ
  failed : ℕ
  warnings : ℕ
  score : ℚ
deriving DecidableEq, Repr

/-- Modelled from the spec: the backend's per-table quality score, missing
from the source tree, is "(passed checks ÷ total checks) × 100" with warnings
counting as non-passed. -/
def qualityScore (passed total : ℕ) : ℚ := 100 * passed / total

/-- Modelled from the spec: a per-table summary over its check outcomes;
the total is the number of checks of every status. -/
def mkQualitySummary (nm : String) (passed failed warnings : ℕ) : QualitySummary :=
  { table_name := nm
    total_checks := passed + failed + warnings
    passed := passed
    failed := failed
    warnings := warnings
    score := qualityScore passed (passed + failed + warnings) }

/-- C9: the quality score is 100 × passed / total with warnings counted as
non-passed, and the total is passed + failed + warnings. -/
theorem C9_quality_score (nm : String) (p f w : ℕ) (h : 0 < p + f + w) :
    (mkQualitySummary nm p f w).total_checks = p + f + w ∧
    (mkQualitySummary nm p f w).score = 100 * (p : ℚ) / ((p : ℚ) + f + w) := by
  refine ⟨rfl, ?_⟩
  show qualityScore p (p + f + w) = _
  unfold qualityScore
  push_cast
  ring

/-- Witness for `C9_quality_score` on the spec's fixture: 4 passed, 1 failed,
1 warning out of 6 gives score 200/3 ≈ 66.7 (667 tenths when rounded). -/
theorem C9_witness :
    (0 < 4 + 1 + 1) ∧
    (mkQualitySummary "fact_market_data" 4 1 1).score
      = 100 * (4 : ℚ) / (4 + 1 + 1) ∧
    (mkQualitySummary "fact_market_data" 4 1 1).score = 200 / 3 ∧
    jsRound ((mkQualitySummary "fact_market_data" 4 1 1).score * 10) = 667 :=
  ⟨by norm_num,
   (C9_quality_score "fact_market_data" 4 1 1 (by norm_num)).2,
   by norm_num [mkQualitySummary, qualityScore],
   by norm_num [mkQualitySummary, qualityScore, jsRound]⟩

/-! ## The dim_time calendar dimension

Embedding of the inline Python in `scripts/setup.sh`:

  if db.query(DimTime).count() == 0:
      current = date(2020, 1, 1)
      end = date(2027, 12, 31)
      batch = []
      while current <= end:
          batch.append(DimTime(date=current, year=current.year,
              quarter=(current.month-1)//3+1, month=current.month,
              week=current.isocalendar()[1], day_of_week=current.weekday(),
              day_of_month=current.day, is_weekend=current.weekday()>=5))
          current += timedelta(days=1)
      db.add_all(batch)
      db.commit()

The proleptic-Gregorian calendar arithmetic (ordinals, weekday, ISO week)
is translated from CPython's `datetime` (`_days_before_year`,
`_days_before_month`, `_ymd2ord`, `date.weekday`, `_isoweek1monday`,
`date.isocalendar`). -/

def isLeap (y : ℕ) : Bool := y % 4 == 0 && (y % 100 != 0 || y % 400 == 0)

def daysInMonth (y m : ℕ) : ℕ :=
  match m with
  | 1 => 31
  | 2 => if isLeap y then 29 else 28
  | 3 => 31
  | 4 => 30
  | 5 => 31
  | 6 => 30
  | 7 => 31
  | 8 => 31
  | 9 => 30
  | 10 => 31
  | 11 => 30
  | 12 => 31
  | _ => 0

/-- CPython's cumulative `_DAYS_BEFORE_MONTH` table. -/
def daysBeforeMonthBase (m : ℕ) : ℕ :=
  match m with
  | 1 => 0
  | 2 => 31
  | 3 => 59
  | 4 => 90
  | 5 => 120
  | 6 => 151
  | 7 => 181
  | 8 => 212
  | 9 => 243
  | 10 => 273
  | 11 => 304
  | 12 => 334
  | _ => 0

def daysBeforeMonth (y m : ℕ) : ℕ :=
  daysBeforeMonthBase m + (if 2 < m && isLeap y then 1 else 0)

/-- CPython's `_days_before_year`, `y*365 + y//4 - y//100 + y//400` for
`y := year - 1`; the terms are reordered so the natural subtraction never
truncates (`(y-1)/100 ≤ (y-1)/4`). -/
def daysBeforeYear (y : ℕ) : ℕ :=
  365 * (y - 1) + (y - 1) / 4 + (y - 1) / 400 - (y - 1) / 100

structure Date where
  y : ℕ
  m : ℕ
  d : ℕ
deriving DecidableEq, Repr

def Date.Valid (dt : Date) : Prop :=
  1 ≤ dt.y ∧ 1 ≤ dt.m ∧ dt.m ≤ 12 ∧ 1 ≤ dt.d ∧ dt.d ≤ daysInMonth dt.y dt.m

instance (dt : Date) : Decidable dt.Valid := by
  unfold Date.Valid
  infer_instance

/-- CPython's `_ymd2ord`: day 1 is 0001-01-01. -/
def toOrdinal (dt : Date) : ℕ :=
  daysBeforeYear dt.y + daysBeforeMonth dt.y dt.m + dt.d

/-- CPython's `date.weekday()`: Monday is 0, Sunday is 6. -/
def dayOfWeek (dt : Date) : ℕ := (toOrdinal dt + 6) % 7

/-- CPython's `_isoweek1monday`: the ordinal of the Monday of ISO week 1. -/
def isoweek1monday (y : ℕ) : ℤ :=
  let firstday : ℤ := toOrdinal ⟨y, 1, 1⟩
  let firstweekday : ℤ := (firstday + 6) % 7
  let week1monday := firstday - firstweekday
  if 3 < firstweekday then week1monday + 7 else week1monday

/-- CPython's `date.isocalendar()[1]`, the ISO 8601 week number. -/
def isoWeek (dt : Date) : ℤ :=
  let today : ℤ := toOrdinal dt
  let week := (today - isoweek1monday dt.y).fdiv 7
  if week < 0 then (today - isoweek1monday (dt.y - 1)).fdiv 7 + 1
  else if 52 ≤ week then
    (if isoweek1monday (dt.y + 1) ≤ today then 1 else week + 1)
  else week + 1

structure DimTimeRow where
  date : Date
  year : ℕ
  quarter : ℕ
  month : ℕ
  week : ℤ
  day_of_week : ℕ
  day_of_month : ℕ
  is_weekend : Bool
deriving DecidableEq, Repr

/-- One `DimTime(...)` row as built in the loop body. -/
def mkDimTimeRow (dt : Date) : DimTimeRow :=
  { date := dt
    year := dt.y
    quarter := (dt.m - 1) / 3 + 1
    month := dt.m
    week := isoWeek dt
    day_of_week := dayOfWeek dt
    day_of_month := dt.d
    is_weekend := decide (5 ≤ dayOfWeek dt) }

/-- Calendar successor, the semantics of `current += timedelta(days=1)`. -/
def nextDate (dt : Date) : Date :=
  if dt.d < daysInMonth dt.y dt.m then ⟨dt.y, dt.m, dt.d + 1⟩
  else if dt.m < 12 then ⟨dt.y, dt.m + 1, 1⟩
  else ⟨dt.y + 1, 1, 1⟩

def dateRangeAux : ℕ → Date → List Date
  | 0, _ => []
  | n + 1, dt => dt :: dateRangeAux n (nextDate dt)

/-- The dates visited by `while current <= end`, one per ordinal from
`toOrdinal s` through `toOrdinal e`. -/
def dateRange (s e : Date) : List Date :=
  dateRangeAux (toOrdinal e + 1 - toOrdinal s) s

def dimTimeStart : Date := ⟨2020, 1, 1⟩

def dimTimeEnd : Date := ⟨2027, 12, 31⟩

def dimTimeBatch : List DimTimeRow :=
  (dateRange dimTimeStart dimTimeEnd).map mkDimTimeRow

/-- The population step: insert the batch only when the table is empty. -/
def populateDimTime (table : List DimTimeRow) : List DimTimeRow :=
  if table.isEmpty then dimTimeBatch else table

theorem daysInMonth_pos (y m : ℕ) (h1 : 1 ≤ m) (h2 : m ≤ 12) :
    1 ≤ daysInMonth y m := by
  interval_cases m <;> simp [daysInMonth] <;> split <;> omega

theorem nextDate_valid (dt : Date) (h : dt.Valid) : (nextDate dt).Valid := by
  obtain ⟨hy, hm1, hm2, hd1, hd2⟩ := h
  unfold nextDate
  by_cases h1 : dt.d < daysInMonth dt.y dt.m
  · rw [if_pos h1]
    exact ⟨hy, hm1, hm2, Nat.succ_le_succ (Nat.zero_le _), h1⟩
  · rw [if_neg h1]
    by_cases h2 : dt.m < 12
    · rw [if_pos h2]
      exact ⟨hy, Nat.succ_le_succ (Nat.zero_le _), h2, le_refl 1,
        daysInMonth_pos dt.y (dt.m + 1) (Nat.succ_le_succ (Nat.zero_le _)) h2⟩
    · rw [if_neg h2]
      exact ⟨Nat.succ_le_succ (Nat.zero_le _), le_refl 1,
        (by decide : (1 : ℕ) ≤ 12), le_refl 1, (by decide : (1 : ℕ) ≤ 31)⟩

set_option maxHeartbeats 2000000 in
theorem daysBeforeYear_succ (y : ℕ) (hy : 1 ≤ y) :
    daysBeforeYear (y + 1) = daysBeforeYear y + (if isLeap y then 366 else 365) := by
  unfold daysBeforeYear
  cases hL : isLeap y with
  | true =>
    rw [if_pos (show (true : Bool) = true from rfl)]
    simp only [isLeap, Bool.and_eq_true, beq_iff_eq, Bool.or_eq_true, bne_iff_ne,
      ne_eq] at hL
    omega
  | false =>
    rw [if_neg (show ¬((false : Bool) = true) from by simp)]
    have hL' : ¬(y % 4 = 0 ∧ (¬(y % 100 = 0) ∨ y % 400 = 0)) := by
      intro hcon
      have ht : isLeap y = true := by
        simp only [isLeap, Bool.and_eq_true, beq_iff_eq, Bool.or_eq_true,
          bne_iff_ne, ne_eq]
        exact hcon
      rw [hL] at ht
      exact Bool.false_ne_true ht
    omega

theorem daysBeforeMonth_succ (y m : ℕ) (h1 : 1 ≤ m) (h2 : m ≤ 11) :
    daysBeforeMonth y (m + 1) = daysBeforeMonth y m + daysInMonth y m := by
  interval_cases m <;>
    cases hL : isLeap y <;>
      simp [daysBeforeMonth, daysBeforeMonthBase, daysInMonth, hL]

theorem toOrdinal_nextDate (dt : Date) (h : dt.Valid) :
    toOrdinal (nextDate dt) = toOrdinal dt + 1 := by
  obtain ⟨hy, hm1, hm2, hd1, hd2⟩ := h
  unfold nextDate
  by_cases h1 : dt.d < daysInMonth dt.y dt.m
  · rw [if_pos h1]
    simp only [toOrdinal]
    omega
  · rw [if_neg h1]
    have hd : dt.d = daysInMonth dt.y dt.m := by omega
    by_cases h2 : dt.m < 12
    · rw [if_pos h2]
      have hsucc := daysBeforeMonth_succ dt.y dt.m hm1 (by omega)
      simp only [toOrdinal]
      omega
    · rw [if_neg h2]
      have hm : dt.m = 12 := by omega
      have hdim : daysInMonth dt.y 12 = 31 := rfl
      have hys := daysBeforeYear_succ dt.y hy
      have hb1 : daysBeforeMonth (dt.y + 1) 1 = 0 := by
        simp [daysBeforeMonth, daysBeforeMonthBase]
      have hb12 : daysBeforeMonth dt.y 12
          = 334 + (if isLeap dt.y then 1 else 0) := by
        cases hL : isLeap dt.y <;>
          simp [daysBeforeMonth, daysBeforeMonthBase, hL]
      have hd31 : dt.d = 31 := by
        rw [hm] at hd
        rw [hdim] at hd
        exact hd
      cases hL : isLeap dt.y with
      | true =>
        rw [hL] at hys hb12
        simp at hys hb12
        simp only [toOrdinal]
        rw [hm, hd31, hb1, hb12]
        omega
      | false =>
        rw [hL] at hys hb12
        simp at hys hb12
        simp only [toOrdinal]
        rw [hm, hd31, hb1, hb12]
        omega

theorem dateRangeAux_spec :
    ∀ (n : ℕ) (dt : Date), dt.Valid →
      ((dateRangeAux n dt).map toOrdinal = List.range' (toOrdinal dt) n ∧
       ∀ x ∈ dateRangeAux n dt, x.Valid) := by
  intro n
  induction n with
  | zero => intro dt _; exact ⟨rfl, by simp [dateRangeAux]⟩
  | succ k ih =>
    intro dt hdt
    obtain ⟨hmap, hval⟩ := ih (nextDate dt) (nextDate_valid dt hdt)
    constructor
    · show toOrdinal dt :: (dateRangeAux k (nextDate dt)).map toOrdinal = _
      rw [hmap, toOrdinal_nextDate dt hdt, List.range'_succ]
    · intro x hx
      rcases List.mem_cons.mp hx with h | h
      · rw [h]; exact hdt
      · exact hval x h

theorem dateRange_spec (s e : Date) (hs : s.Valid) :
    ((dateRange s e).map toOrdinal
      = List.range' (toOrdinal s) (toOrdinal e + 1 - toOrdinal s)) ∧
    ∀ x ∈ dateRange s e, x.Valid :=
  dateRangeAux_spec (toOrdinal e + 1 - toOrdinal s) s hs

theorem dimTimeStart_valid : dimTimeStart.Valid := by decide

theorem toOrdinal_start : toOrdinal dimTimeStart = 737425 := by decide

theorem toOrdinal_end : toOrdinal dimTimeEnd = 740346 := by decide

theorem dimTimeBatch_map_ordinals :
    dimTimeBatch.map (fun r => toOrdinal r.date) = List.range' 737425 2922 := by
  unfold dimTimeBatch
  rw [List.map_map]
  have hcomp : List.map ((fun r => toOrdinal r.date) ∘ mkDimTimeRow)
      (dateRange dimTimeStart dimTimeEnd)
      = List.map toOrdinal (dateRange dimTimeStart dimTimeEnd) :=
    List.map_congr_left (fun dt _ => rfl)
  rw [hcomp]
  rw [(dateRange_spec dimTimeStart dimTimeEnd dimTimeStart_valid).1]
  rw [toOrdinal_start, toOrdinal_end]

theorem dimTimeBatch_valid : ∀ r ∈ dimTimeBatch, r.date.Valid := by
  intro r hr
  rcases List.mem_map.mp hr with ⟨dt, hdt, hrow⟩
  have hv := (dateRange_spec dimTimeStart dimTimeEnd dimTimeStart_valid).2 dt hdt
  rw [← hrow]
  exact hv

theorem dayOfWeek_lt (dt : Date) : dayOfWeek dt < 7 :=
  Nat.mod_lt _ (by omega)

/-- C7: the dim_time population inserts, only into an empty table, one row
per date from 2020-01-01 through 2027-12-31 (2922 distinct consecutive
ordinals), each row's derived fields a function of its date alone: year,
month and day-of-month copied from the date, quarter = (month-1)/3 + 1, the
ISO week number, the Monday-based weekday, and is-weekend exactly for
weekdays 5 and 6 (Saturday, Sunday); a non-empty table is left unchanged. -/
theorem C7_dim_time_population (table : List DimTimeRow) (hne : table ≠ []) :
    populateDimTime [] = dimTimeBatch ∧
    populateDimTime table = table ∧
    dimTimeBatch.map (fun r => toOrdinal r.date) = List.range' 737425 2922 ∧
    (dimTimeBatch.map (fun r => toOrdinal r.date)).Nodup ∧
    dimTimeBatch.length = 2922 ∧
    toOrdinal dimTimeStart = 737425 ∧
    toOrdinal dimTimeEnd = 740346 ∧
    ∀ r ∈ dimTimeBatch,
      r.date.Valid ∧
      737425 ≤ toOrdinal r.date ∧ toOrdinal r.date ≤ 740346 ∧
      r.year = r.date.y ∧
      r.month = r.date.m ∧
      r.day_of_month = r.date.d ∧
      r.quarter = (r.date.m - 1) / 3 + 1 ∧
      r.week = isoWeek r.date ∧
      r.day_of_week = dayOfWeek r.date ∧
      (r.is_weekend = true ↔ (dayOfWeek r.date = 5 ∨ dayOfWeek r.date = 6)) := by
  have hmap := dimTimeBatch_map_ordinals
  refine ⟨rfl, ?_, hmap, ?_, ?_, toOrdinal_start, toOrdinal_end, ?_⟩
  · cases table with
    | nil => exact absurd rfl hne
    | cons a t => rfl
  · rw [hmap]; exact List.nodup_range' _ _
  · have := congrArg List.length hmap
    rw [List.length_map, List.length_range'] at this
    exact this
  · intro r hr
    have hvalid := dimTimeBatch_valid r hr
    have hord : toOrdinal r.date ∈ List.range' 737425 2922 := by
      rw [← hmap]
      exact List.mem_map.mpr ⟨r, hr, rfl⟩
    have hbounds := List.mem_range'_1.mp hord
    rcases List.mem_map.mp hr with ⟨dt, _, hrow⟩
    have hfields : r.year = r.date.y ∧ r.month = r.date.m ∧
        r.day_of_month = r.date.d ∧ r.quarter = (r.date.m - 1) / 3 + 1 ∧
        r.week = isoWeek r.date ∧ r.day_of_week = dayOfWeek r.date ∧
        r.is_weekend = decide (5 ≤ dayOfWeek r.date) := by
      rw [← hrow]
      exact ⟨rfl, rfl, rfl, rfl, rfl, rfl, rfl⟩
    refine ⟨hvalid, hbounds.1, by omega, hfields.1, hfields.2.1, hfields.2.2.1,
      hfields.2.2.2.1, hfields.2.2.2.2.1, hfields.2.2.2.2.2.1, ?_⟩
    rw [hfields.2.2.2.2.2.2]
    have hlt := dayOfWeek_lt r.date
    constructor
    · intro h
      have := of_decide_eq_true h
      omega
    · intro h
      apply decide_eq_true
      omega

/-- Witness for `C7_dim_time_population` at a concrete non-empty table. -/
theorem C7_witness :
    (mkDimTimeRow dimTimeStart :: []) ≠ [] ∧
    populateDimTime [mkDimTimeRow dimTimeStart] = [mkDimTimeRow dimTimeStart] :=
  ⟨by simp, (C7_dim_time_population [mkDimTimeRow dimTimeStart] (by simp)).2.1⟩

end Cryptoflow
